import Mathlib

/-!
Verification of the estd object-dictionary core (eobject.hpp / eobject.cpp,
with the string and algorithm helpers from estring.hpp, estd.hpp, array.hpp).

Modelling conventions:
* machine integers are Nat / Int; backing storage and byte buffers are lists
  of Nat (one entry per byte, little-endian for multi-byte scalars);
* a C++ pointer that may be null becomes an Option;
* the int32 calling convention of get/set (non-negative byte count or a
  negative error code) is kept: functions return Int codes, and the exact
   ERR_ODV3 constants are reproduced in Err.code;
* the closed family of mutation strategies from Object::detail is an
  inductive (Strategy), interpreted by Strategy.apply; function pointers
  stored in Info become a SetFun value interpreted by SetFun.apply;
* the C++ struct inheritance Info / Variable::Info / Array::Info /
  Record::Info is a tagged payload, with the ClassId tag derived from the
  payload (the source keeps the tag and the derived class consistent by
  construction).
-/

namespace estd

/-- Test if character is whitespace (estring.hpp isspace). -/
def isspace (c : Char) : Bool := (9 ≤ c.toNat && c.toNat ≤ 13) || c.toNat = 32

/-- Convert a character to lower-case (estring.hpp tolower). -/
def tolower (c : Char) : Char :=
  if 65 ≤ c.toNat && c.toNat ≤ 90 then Char.ofNat (c.toNat + 32) else c

/-- string_view::compare: lexicographic comparison of the lowered characters,
then of the lengths (estring.hpp). -/
def sv_compare : List Char → List Char → Int
  | [], [] => 0
  | [], _ :: _ => -1
  | _ :: _, [] => 1
  | a :: as, b :: bs =>
    if (tolower a).toNat < (tolower b).toNat then -1
    else if (tolower b).toNat < (tolower a).toNat then 1
    else sv_compare as bs

/-- string_view operator==, via compare (case-insensitive). -/
def svEq (a b : List Char) : Bool := sv_compare a b = 0

/-- trim_prefix with a predicate: drop matching characters at the start
(estring.hpp, find_if_not followed by remove_prefix). -/
def trim_start (p : Char → Bool) (s : List Char) : List Char := s.dropWhile p

/-- trim_suffix with a predicate: drop matching characters at the end
(estring.hpp). -/
def trim_end (p : Char → Bool) (s : List Char) : List Char :=
  (s.reverse.dropWhile p).reverse

/-- next_token (estring.hpp): drop leading delimiters, return the token up to
the next delimiter together with the remaining input (the delimiter itself is
consumed). -/
def next_token (p : Char → Bool) (s : List Char) : List Char × List Char :=
  let s1 := s.dropWhile p
  let tok := s1.takeWhile (fun c => !p c)
  let rest := if tok.length < s1.length then s1.drop (tok.length + 1) else s1.drop tok.length
  (tok, rest)

/-- Element of a list at an index, with the Inhabited default out of range
(models dereferencing iterator first + i into a C array). -/
def lget [Inhabited α] (l : List α) (i : Nat) : α := l.getD i default

/-- estd::detail::iter_swap of two positions of a list. -/
def iter_swap [Inhabited α] (l : List α) (i j : Nat) : List α :=
  (l.set i (lget l j)).set j (lget l i)

/-- Largest child selection step shared by the two halves of __sift_down:
from left child c1 = 2*c+1, move to the right child when it exists and
compares greater. -/
def max_child [Inhabited α] (lt : α → α → Bool) (l : List α) (len c : Nat) : Nat :=
  let c1 := 2 * c + 1
  if c1 + 1 < len && lt (lget l c1) (lget l (c1 + 1)) then c1 + 1 else c1

/-- The do-while loop of estd::detail::__sift_down: the hole at cur receives
the value of child, the hole moves to child, and the walk continues down the
larger-child path until the subtree bottom is reached or the next child
compares below top; top is then stored in the final hole. -/
def sift_loop [Inhabited α] (lt : α → α → Bool) (len : Nat) (top : α) :
    List α → Nat → Nat → List α
  | l, cur, child =>
    let l' := l.set cur (lget l child)
    if (len - 2) / 2 < child then l'.set child top
    else
      let c := max_child lt l' len child
      if lt (lget l' c) top then l'.set child top
      else sift_loop lt len top l' child c
termination_by _ _ child => (len - 2) / 2 + 2 - child
decreasing_by
  simp only [max_child]
  split <;> omega

/-- estd::detail::__sift_down over the prefix of length len, rooted at s. -/
def sift_down [Inhabited α] (lt : α → α → Bool) (l : List α) (len s : Nat) : List α :=
  if len < 2 || (len - 2) / 2 < s then l
  else
    let c := max_child lt l len s
    if lt (lget l c) (lget l s) then l
    else sift_loop lt len (lget l s) l s c

/-- estd::detail::__pop_heap: swap the root with the last element of the
heap prefix and sift the new root down the shortened prefix. -/
def pop_heap [Inhabited α] (lt : α → α → Bool) (l : List α) (len : Nat) : List α :=
  if 1 < len then sift_down lt (iter_swap l 0 (len - 1)) (len - 1) 0 else l

/-- The descending loop of estd::make_heap, sifting down from start s to 0. -/
def make_heap_loop [Inhabited α] (lt : α → α → Bool) (len : Nat) :
    List α → Nat → List α
  | l, 0 => sift_down lt l len 0
  | l, s + 1 => make_heap_loop lt len (sift_down lt l len (s + 1)) s

/-- estd::make_heap. -/
def make_heap [Inhabited α] (lt : α → α → Bool) (l : List α) : List α :=
  if l.length < 1 then l else make_heap_loop lt l.length l ((l.length - 2) / 2)

/-- The loop of estd::sort_heap: pop the maximum of each prefix n, n-1, ..., 2. -/
def sort_heap_loop [Inhabited α] (lt : α → α → Bool) : List α → Nat → List α
  | l, n + 2 => sort_heap_loop lt (pop_heap lt l (n + 2)) (n + 1)
  | l, _ => l

/-- estd::sort_heap over the whole list. -/
def sort_heap [Inhabited α] (lt : α → α → Bool) (l : List α) : List α :=
  sort_heap_loop lt l l.length

/-- estd::sort: heapsort (make_heap then sort_heap). -/
def sort [Inhabited α] (lt : α → α → Bool) (l : List α) : List α :=
  sort_heap lt (make_heap lt l)

/-- The halving loop of estd::lower_bound, with first index and count. -/
def lb_loop [Inhabited α] (comp : α → β → Bool) (v : β) (l : List α) :
    Nat → Nat → Nat
  | first, 0 => first
  | first, count + 1 =>
    let step := (count + 1) / 2
    if comp (lget l (first + step)) v then
      lb_loop comp v l (first + step + 1) (count - step)
    else
      lb_loop comp v l first step
termination_by _ count => count
decreasing_by all_goals omega

/-- estd::lower_bound over a whole list: first position not comparing below v. -/
def lower_bound [Inhabited α] (comp : α → β → Bool) (v : β) (l : List α) : Nat :=
  lb_loop comp v l 0 l.length

end estd

namespace eobject

/-- Error codes of eobject.hpp; Err.code reproduces the exact ERR_ODV3
int32 values. -/
inductive Err where
  | OK | DataTypeError | ParamTooLong | ParamTooShort | ValueTooHigh | ValueTooLow
  | ObjectNotFound | FieldNotFound | ReadOnly | WriteOnly | UnableToSet
deriving DecidableEq

/-- The numeric int32 value of each error code: 0xC09B00xx reinterpreted as a
signed 32-bit integer. -/
def Err.code : Err → Int
  | .OK => 0
  | .DataTypeError => -1063124982
  | .ParamTooLong => -1063124981
  | .ParamTooShort => -1063124980
  | .ValueTooHigh => -1063124977
  | .ValueTooLow => -1063124976
  | .ObjectNotFound => -1063124987
  | .FieldNotFound => -1063124979
  | .ReadOnly => -1063124988
  | .WriteOnly => -1063124989
  | .UnableToSet => -1063124984

/-- DataType tags with their fixed numeric values recorded by DataType.tag. -/
inductive DataType where
  | Invalid | U8 | U16 | U32 | I8 | I16 | I32 | String | BinString | Record
deriving DecidableEq

/-- The wire value of each DataType tag. -/
def DataType.tag : DataType → Nat
  | .Invalid => 0x0
  | .U8 => 0x1
  | .U16 => 0x2
  | .U32 => 0x3
  | .I8 => 0x4
  | .I16 => 0x5
  | .I32 => 0x6
  | .String => 0x8
  | .BinString => 0x9
  | .Record => 0xA

/-- type_size from eobject.cpp: byte width of each data type. -/
def type_size : DataType → Nat
  | .Invalid => 0
  | .U8 => 1
  | .U16 => 2
  | .U32 => 4
  | .I8 => 1
  | .I16 => 2
  | .I32 => 4
  | .String => 1
  | .BinString => 1
  | .Record => 0

/-- Object::ClassId. -/
inductive ClassId where
  | Invalid | Variable | Array | Record
deriving DecidableEq

/-- The scalar types T over which the setter templates are instantiated. -/
inductive ScalarType where
  | u8 | u16 | u32 | i8 | i16 | i32
deriving DecidableEq

/-- sizeof(T) for each scalar template parameter. -/
def ScalarType.width : ScalarType → Nat
  | .u8 => 1
  | .u16 => 2
  | .u32 => 4
  | .i8 => 1
  | .i16 => 2
  | .i32 => 4

/-- Signedness of each scalar template parameter. -/
def ScalarType.signed : ScalarType → Bool
  | .u8 => false
  | .u16 => false
  | .u32 => false
  | .i8 => true
  | .i16 => true
  | .i32 => true

/-- Little-endian value of a byte list. -/
def lebytes : List Nat → Nat
  | [] => 0
  | b :: rest => b + 256 * lebytes rest

/-- The value read by *static_cast<const T*>(data): the first sizeof(T)
bytes, little-endian, two-complement for the signed types. -/
def decodeScalar (t : ScalarType) (bs : List Nat) : Int :=
  let v := lebytes (bs.take t.width)
  if t.signed && 2 ^ (8 * t.width - 1) ≤ v then (v : Int) - 2 ^ (8 * t.width) else (v : Int)

/-- memcpy of a byte list into a memory block at an offset. -/
def write_bytes (mem : List Nat) (off : Nat) (bs : List Nat) : List Nat :=
  mem.take off ++ bs ++ mem.drop (off + bs.length)

/-- Read count bytes of a memory block starting at an offset. -/
def read_bytes (mem : List Nat) (off count : Nat) : List Nat :=
  (mem.drop off).take count

/-- Object::detail::check (eobject.hpp 151-175): size check, null check,
then the range check that is skipped when the range is empty (min == max). -/
def check (t : ScalarType) (lo hi : Int) (data : Option (List Nat)) (size : Nat) : Int :=
  if size > t.width then Err.ParamTooLong.code
  else if size < t.width then Err.ParamTooShort.code
  else
    match data with
    | none => Err.DataTypeError.code
    | some bs =>
      if lo ≠ hi then
        let value := decodeScalar t bs
        if value < lo then Err.ValueTooLow.code
        else if value > hi then Err.ValueTooHigh.code
        else Err.OK.code
      else Err.OK.code

/-- The closed family of mutation strategies of Object::detail, as bound
into Info or into Record field metadata at construction time.
set_wrapper carries the external setter as an Int → Int function on the
decoded value. set_default carries the offset of the member within the
data class. -/
inductive Strategy where
  | set_readonly
  | set_variable (t : ScalarType) (lo hi : Int)
  | set_default (t : ScalarType) (lo hi : Int) (member_offset : Nat)
  | set_string_variable (len : Nat)
  | set_wrapper (t : ScalarType) (lo hi : Int) (setf : Int → Int)

/-- Interpretation of a strategy: base is the address object.data(), that is,
the data pointer plus the data_offset of the owning Info; the result is the
returned int32 code together with the (possibly updated) backing block. -/
def Strategy.apply : Strategy → Nat → List Nat → Option (List Nat) → Nat → Int × List Nat
  | .set_readonly, _, mem, _, _ => (Err.ReadOnly.code, mem)
  | .set_variable t lo hi, base, mem, data, size =>
    let e := check t lo hi data size
    if e ≠ Err.OK.code then (e, mem)
    else (Err.OK.code, write_bytes mem base ((data.getD []).take t.width))
  | .set_default t lo hi moff, base, mem, data, size =>
    let e := check t lo hi data size
    if e ≠ Err.OK.code then (e, mem)
    else (Err.OK.code, write_bytes mem (base + moff) ((data.getD []).take t.width))
  | .set_string_variable len, base, mem, data, size =>
    if size > len then (Err.ParamTooLong.code, mem)
    else if size = len && (data.getD []).getD (size - 1) 0 ≠ 0 then (Err.ParamTooLong.code, mem)
    else
      (Err.OK.code,
        write_bytes mem base
          ((data.getD []).take size ++ if size < len then List.replicate (len - size) 0 else []))
  | .set_wrapper t lo hi setf, _, mem, data, size =>
    let e := check t lo hi data size
    if e ≠ Err.OK.code then (e, mem)
    else (setf (decodeScalar t (data.getD [])), mem)

/-- Record field metadata (Record::FieldInfo = Variable::Info plus a name):
declared type, permissions, offset, size, range and the bound strategy. -/
structure Field where
  name : List Char
  type : DataType
  perm : Nat
  data_offset : Nat
  data_size : Nat
  set_function : Strategy
  rmin : Int
  rmax : Int

instance : Inhabited Field :=
  ⟨⟨[], .Invalid, 0, 0, 0, .set_readonly, 0, 0⟩⟩

/-- Shape payload of an Info: the data of the derived class selected by the
ClassId tag (Variable carries a range, Array a range and the display names,
Record its field list). -/
inductive Payload where
  | invalid
  | var (rmin rmax : Int)
  | arr (rmin rmax : Int) (names : List (List Char))
  | record (fields : List Field)

/-- The mutation function pointer stored in an Info: either one of the
detail strategies, or Record::detail::set_data. -/
inductive SetFun where
  | base (s : Strategy)
  | record_set_data

/-- Object::Info together with the payload of the derived class. -/
structure Info where
  type : DataType
  nelem : Nat
  perm : Nat
  data_offset : Nat
  data_size : Nat
  set_function : SetFun
  payload : Payload

/-- The ClassId tag, always consistent with the payload in the source
constructors. -/
def Info.otype (i : Info) : ClassId :=
  match i.payload with
  | .invalid => .Invalid
  | .var _ _ => .Variable
  | .arr _ _ _ => .Array
  | .record _ => .Record

/-- Object: a name, a reference to an Info, and an optional pointer to the
backing bytes. -/
structure Object where
  name : List Char
  info : Info
  data : Option (List Nat)

/-- The backing block reached through the data pointer (meaningful when the
pointer is bound). -/
def Object.mem (o : Object) : List Nat := o.data.getD []

/-- Record::detail::set_data and strategy dispatch: Object::set hands
(object, subIdx, data, size) to the set_function of the Info
(eobject.hpp 363-366, 810-816). -/
def SetFun.apply : SetFun → Object → Nat → Option (List Nat) → Nat → Int × List Nat
  | .base s, o, _, data, size => s.apply o.info.data_offset o.mem data size
  | .record_set_data, o, subIdx, data, size =>
    if o.info.otype ≠ ClassId.Record || subIdx > o.info.nelem then
      (Err.FieldNotFound.code, o.mem)
    else if subIdx = 0 then (Err.ReadOnly.code, o.mem)
    else
      match o.info.payload with
      | .record fields =>
        (estd.lget fields (subIdx - 1)).set_function.apply o.info.data_offset o.mem data size
      | _ => (Err.FieldNotFound.code, o.mem)

/-- Object::set. -/
def Object.set (o : Object) (subIdx : Nat) (data : Option (List Nat)) (size : Nat) :
    Int × List Nat :=
  o.info.set_function.apply o subIdx data size

/-- The whole-object read overload Object::get(buffer, size)
(eobject.hpp 384-391): returns data_size, and copies the backing bytes only
when data_size is strictly below the buffer capacity. -/
def Object.get' (o : Object) (buffer : List Nat) (size : Nat) : Int × List Nat :=
  match o.data with
  | none => (Err.WriteOnly.code, buffer)
  | some mem =>
    let data_size := o.info.data_size
    if data_size < size then
      ((data_size : Int), write_bytes buffer 0 (read_bytes mem o.info.data_offset data_size))
    else ((data_size : Int), buffer)

/-- Object::get(subIdx, buffer, size) (eobject.cpp 71-124): WriteOnly without
a data pointer, then dispatch on the object class. -/
def Object.get (o : Object) (subIdx : Nat) (buffer : List Nat) (size : Nat) :
    Int × List Nat :=
  match o.data with
  | none => (Err.WriteOnly.code, buffer)
  | some mem =>
    match o.info.payload with
    | .var _ _ =>
      if subIdx = 0 then o.get' buffer size else (Err.FieldNotFound.code, buffer)
    | .arr _ _ _ =>
      if subIdx ≤ o.info.nelem then
        if subIdx = 0 then ((1 : Int), write_bytes buffer 0 [o.info.nelem])
        else
          let elem_size := type_size o.info.type
          ((elem_size : Int),
            write_bytes buffer 0
              (read_bytes mem (o.info.data_offset + elem_size * (subIdx - 1)) elem_size))
      else (Err.FieldNotFound.code, buffer)
    | .record fields =>
      if subIdx ≤ o.info.nelem then
        if subIdx = 0 then ((1 : Int), write_bytes buffer 0 [o.info.nelem])
        else
          let f := estd.lget fields (subIdx - 1)
          if f.data_size > size then (Err.ParamTooShort.code, buffer)
          else ((f.data_size : Int), write_bytes buffer 0 (read_bytes mem f.data_offset f.data_size))
      else (Err.FieldNotFound.code, buffer)
    | .invalid => (Err.ObjectNotFound.code, buffer)

/-- Object::FieldInfo: the resolved projection of a sub-index (the info
pointer member is not modelled; no claim mentions it). A null name reference
is the none case and marks the invalid result. -/
structure OFieldInfo where
  name : Option (List Char)
  offset : Nat
  size : Nat

/-- Object::info(subIdx) (eobject.cpp 126-155). The aggregate starts with a
null name and value-initialized offset and size; in range, offset and size
first receive the data_offset and data_size of the owning Info, then the
Record branch overwrites only name and size while the Array branch also
recomputes the element offset. -/
def Object.info_at (o : Object) (subIdx : Nat) : OFieldInfo :=
  if 0 < subIdx ∧ subIdx ≤ o.info.nelem then
    match o.info.payload with
    | .record fields =>
      let f := estd.lget fields (subIdx - 1)
      { name := some f.name, offset := o.info.data_offset, size := f.data_size }
    | .arr _ _ names =>
      let sz := type_size o.info.type
      { name := some (estd.lget names (subIdx - 1)),
        offset := o.info.data_offset + sz * (subIdx - 1), size := sz }
    | _ => { name := none, offset := o.info.data_offset, size := o.info.data_size }
  else { name := none, offset := 0, size := 0 }

instance : Inhabited (List Char) := ⟨[]⟩

/-- Record::Info::find (eobject.cpp 157-165): index of the first field among
the first nelem whose name compares equal (string_view equality), or nelem. -/
def record_find (fields : List Field) (nelem : Nat) (name : List Char) : Nat :=
  match (fields.take nelem).findIdx? (fun f => estd.svEq f.name name) with
  | some i => i
  | none => nelem

/-- Array::Info::find (eobject.hpp 611-621): index of the first display name
comparing equal, or nelem. -/
def array_find (names : List (List Char)) (nelem : Nat) (name : List Char) : Nat :=
  match (names.take nelem).findIdx? (fun n => estd.svEq n name) with
  | some i => i
  | none => nelem

/-- Dictionary::Item. -/
structure Item where
  address : Nat
  pdo_mapping : Nat
  object : Object

instance : Inhabited Item :=
  ⟨⟨0, 0, ⟨[], ⟨.Invalid, 0, 0, 0, 0, .base .set_readonly, .invalid⟩, none⟩⟩⟩

/-- Dictionary: the ordered item sequence (count is its length). -/
structure Dictionary where
  items : List Item

/-- What q.info can point at after resolution: nothing, an Info of an
object, or the FieldInfo of a record field. -/
inductive QInfoRef where
  | none
  | info (i : Info)
  | field (f : Field)

/-- Dictionary::Query state. -/
structure Query where
  object_name : List Char
  subobject_name : List Char
  item : Option Item
  qinfo : QInfoRef
  subIdx : Int

/-- Query::issep: the separators recognized inside a query string. -/
def qissep (c : Char) : Bool := c = '.' || c = ':' || c = '/'

/-- The Query constructor (eobject.hpp 993-1002): two next_token calls with
the separator predicate, subIdx initialized to -1, then trim_prefix of
whitespace on object_name and trim_suffix of whitespace on subobject_name. -/
def mkQuery (s : List Char) : Query :=
  let t1 := estd.next_token qissep s
  let t2 := estd.next_token qissep t1.2
  { object_name := estd.trim_start estd.isspace t1.1
    subobject_name := estd.trim_end estd.isspace t2.1
    item := none
    qinfo := .none
    subIdx := -1 }

/-- Dictionary::find (eobject.cpp 167-174): linear scan by object name. -/
def Dictionary.find (d : Dictionary) (name : List Char) : Option Item :=
  d.items.find? (fun it => estd.svEq it.object.name name)

/-- Dictionary::get (eobject.cpp 176-181): lower_bound by address over the
sorted items, then the exact-address test. -/
def Dictionary.get (d : Dictionary) (address : Nat) : Option Object :=
  let it := estd.lower_bound (fun (l : Item) (a : Nat) => l.address < a) address d.items
  if it < d.items.length ∧ (estd.lget d.items it).address = address then
    some (estd.lget d.items it).object
  else none

/-- Dictionary::query (eobject.cpp 183-220): resolve the object by name; with
a non-empty subobject name, scan record field names (success sets q.info and
subIdx = index + 1) or array display names (subIdx = find result + 1, q.info
= the array Info, success if subIdx differs from nelem); other shapes fail
with FieldNotFound; an empty subobject name resolves to the whole object. -/
def Dictionary.query (d : Dictionary) (q : Query) : Int × Query :=
  match d.find q.object_name with
  | none => (Err.ObjectNotFound.code, { q with item := none })
  | some it =>
    let q1 := { q with item := some it }
    if q1.subobject_name.isEmpty = false then
      match it.object.info.payload with
      | .record fields =>
        let idx := record_find fields it.object.info.nelem q1.subobject_name
        if idx < it.object.info.nelem then
          (Err.OK.code,
            { q1 with qinfo := .field (estd.lget fields idx), subIdx := (idx : Int) + 1 })
        else (Err.FieldNotFound.code, q1)
      | .arr _ _ names =>
        let si : Int := (array_find names it.object.info.nelem q1.subobject_name : Int) + 1
        let q2 := { q1 with subIdx := si, qinfo := .info it.object.info }
        if si ≠ (it.object.info.nelem : Int) then (Err.OK.code, q2)
        else (Err.FieldNotFound.code, q2)
      | _ => (Err.FieldNotFound.code, q1)
    else (Err.OK.code, { q1 with qinfo := .info it.object.info })

/-- TDictionary::compare_address. -/
def compare_address (l r : Item) : Bool := l.address < r.address

/-- The TDictionary constructor (eobject.hpp 1082-1085): the stored item
sequence is the input sorted by address with estd::sort. -/
def tdictionary (items : List Item) : Dictionary :=
  ⟨estd.sort compare_address items⟩

end eobject

namespace eobject

/-- Fixture: a Variable Info of type u8 (data_size 1 at offset 0) bound to
set_variable with an empty range. -/
def exVarInfo : Info := ⟨.U8, 1, 0, 0, 1, .base (.set_variable .u8 0 0), .var 0 0⟩

/-- Fixture: a Variable object whose single backing byte is 42. -/
def exVarObj : Object := ⟨[Char.ofNat 118], exVarInfo, some [42]⟩

/-- Fixture: the two fields of the record of spec section 8: temp (I16 at
offset 0, range -40..125) and flags (U8 at offset 2, read-only). -/
def exRecFields : List Field :=
  [⟨"temp".toList, .I16, 0, 0, 2, .set_default .i16 (-40) 125 0, -40, 125⟩,
   ⟨"flags".toList, .U8, 0, 2, 1, .set_readonly, 0, 0⟩]

/-- Fixture: the record Info over exRecFields; its data_offset is the offset
of the first field and its data_size the total size. -/
def exRecInfo : Info := ⟨.Record, 2, 0, 0, 3, .record_set_data, .record exRecFields⟩

/-- Fixture: a record object with backing bytes [0, 0, 5]. -/
def exRecObj : Object := ⟨"status".toList, exRecInfo, some [0, 0, 5]⟩

/-- Fixture: an Array Info of two u8 elements named a and b. -/
def exArrInfo : Info :=
  ⟨.U8, 2, 0, 0, 2, .base .set_readonly, .arr 0 0 ["a".toList, "b".toList]⟩

/-- Fixture: an array object with backing bytes [10, 20]. -/
def exArrObj : Object := ⟨"arr".toList, exArrInfo, some [10, 20]⟩

/-- Fixture: a dictionary holding only exArrObj at address 1. -/
def exArrDict : Dictionary := ⟨[⟨1, 0, exArrObj⟩]⟩

/-- The linear scan reference for address lookup: the object of the first
stored item bearing the address, if any. -/
def linear_get (d : Dictionary) (address : Nat) : Option Object :=
  (d.items.find? (fun it => it.address == address)).map (fun it => it.object)

end eobject

namespace estd

/-- The comparison actually instantiated by the dictionary: strictly below
on a numeric key. -/
def key_lt (key : α → Nat) (a b : α) : Bool := key a < key b

/-- Non-decreasing by key from position n to the end. -/
def sorted_from [Inhabited α] (key : α → Nat) (l : List α) (n : Nat) : Prop :=
  ∀ i j, n ≤ i → i ≤ j → j < l.length → key (lget l i) ≤ key (lget l j)

/-- Every key of the prefix below n is at most every key from n on. -/
def prefix_le [Inhabited α] (key : α → Nat) (l : List α) (n : Nat) : Prop :=
  ∀ i j, i < n → n ≤ j → j < l.length → key (lget l i) ≤ key (lget l j)

/-- Binary max-heap order by key over the prefix of length len, for all
parents at or after s. -/
def lheap [Inhabited α] (key : α → Nat) (l : List α) (len s : Nat) : Prop :=
  ∀ p c, s ≤ p → (c = 2 * p + 1 ∨ c = 2 * p + 2) → c < len →
    key (lget l c) ≤ key (lget l p)

end estd

open eobject

/-- Every detail strategy that returns a code other than OK leaves the
backing block untouched: each strategy validates completely before its
single write. -/
theorem Strategy.apply_ne_ok_mem (s : Strategy) (base : Nat) (mem : List Nat)
    (data : Option (List Nat)) (size : Nat)
    (h : (s.apply base mem data size).1 ≠ Err.OK.code) :
    (s.apply base mem data size).2 = mem := by
  cases s <;> simp only [Strategy.apply] at h ⊢ <;> split_ifs at h ⊢ <;> simp_all

/-- Claim C8: for every set strategy and every input, a set call that
returns an error leaves the backing storage bytes unchanged; this also holds
through the record dispatcher; and an object bound to the read-only strategy
answers ReadOnly with untouched memory for every sub-index. -/
theorem C8_set_error_no_write :
    (∀ (s : Strategy) (base : Nat) (mem : List Nat) (data : Option (List Nat)) (size : Nat),
      (s.apply base mem data size).1 ≠ Err.OK.code → (s.apply base mem data size).2 = mem)
    ∧ (∀ (f : SetFun) (o : Object) (subIdx : Nat) (data : Option (List Nat)) (size : Nat),
      (f.apply o subIdx data size).1 ≠ Err.OK.code → (f.apply o subIdx data size).2 = o.mem)
    ∧ (∀ (o : Object) (subIdx : Nat) (data : Option (List Nat)) (size : Nat),
      o.info.set_function = .base .set_readonly →
      o.set subIdx data size = (Err.ReadOnly.code, o.mem)) := by
  refine ⟨Strategy.apply_ne_ok_mem, ?_, ?_⟩
  · intro f o subIdx data size h
    cases f with
    | base s => exact Strategy.apply_ne_ok_mem s _ _ _ _ h
    | record_set_data =>
      simp only [SetFun.apply] at h ⊢
      split_ifs at h ⊢ with h1 h2
      · rfl
      · rfl
      · cases hp : o.info.payload with
        | record fields =>
          simp only [hp] at h ⊢
          exact Strategy.apply_ne_ok_mem _ _ _ _ _ h
        | invalid => simp [hp]
        | var rmin rmax => simp [hp]
        | arr rmin rmax names => simp [hp]
  · intro o subIdx data size h
    simp only [Object.set, h, SetFun.apply, Strategy.apply]

/-- Witness for C8: the read-only strategy fails with ReadOnly and leaves a
concrete two-byte block unchanged. -/
theorem C8_witness :
    (Strategy.apply .set_readonly 0 [1, 2] (some [3]) 1).2 = [1, 2] :=
  C8_set_error_no_write.1 .set_readonly 0 [1, 2] (some [3]) 1 (by decide)

/-- Object::detail::check answers ParamTooLong on an oversized input. -/
theorem check_long (t : ScalarType) (lo hi : Int) (data : Option (List Nat)) (size : Nat)
    (h : size > t.width) : check t lo hi data size = Err.ParamTooLong.code := by
  simp only [check]
  rw [if_pos h]

/-- Object::detail::check answers ParamTooShort on an undersized input. -/
theorem check_short (t : ScalarType) (lo hi : Int) (data : Option (List Nat)) (size : Nat)
    (h : size < t.width) : check t lo hi data size = Err.ParamTooShort.code := by
  simp only [check]
  rw [if_neg (by omega), if_pos h]

/-- With an exact size, a non-empty range and a value below it, check
answers ValueTooLow. -/
theorem check_low (t : ScalarType) (lo hi : Int) (bs : List Nat) (size : Nat)
    (h : size = t.width) (hr : lo ≠ hi) (hv : decodeScalar t bs < lo) :
    check t lo hi (some bs) size = Err.ValueTooLow.code := by
  simp only [check]
  rw [if_neg (by omega), if_neg (by omega), if_pos hr, if_pos hv]

/-- With an exact size, a non-empty range and a value above it, check
answers ValueTooHigh. -/
theorem check_high (t : ScalarType) (lo hi : Int) (bs : List Nat) (size : Nat)
    (h : size = t.width) (hr : lo < hi) (hv : decodeScalar t bs > hi) :
    check t lo hi (some bs) size = Err.ValueTooHigh.code := by
  simp only [check]
  rw [if_neg (by omega), if_neg (by omega), if_pos (by omega : lo ≠ hi),
    if_neg (by omega), if_pos hv]

/-- check succeeds exactly when the size is the scalar width and the decoded
value is inside the range or the range is empty. -/
theorem check_ok_iff (t : ScalarType) (lo hi : Int) (bs : List Nat) (size : Nat) :
    check t lo hi (some bs) size = Err.OK.code ↔
      size = t.width ∧ (lo = hi ∨ (lo ≤ decodeScalar t bs ∧ decodeScalar t bs ≤ hi)) := by
  simp only [check, Err.code]
  split_ifs <;> constructor <;> intro h <;> first | exact h.elim | trivial | omega

/-- Claim C5: the scalar set strategy over T with bounds (lo, hi): too large
an input fails ParamTooLong, too small ParamTooShort; with a non-empty range
a decoded value below lo fails ValueTooLow and above hi ValueTooHigh; with
lo = hi no range check is applied; set succeeds exactly when the size equals
the scalar width and the value is in range (or the range is empty), and on
success the T-sized value is written to the bound storage location. -/
theorem C5_scalar_set_spec (t : ScalarType) (lo hi : Int) (base : Nat)
    (mem bs : List Nat) (size : Nat) (hbs : bs.length = size) :
    (size > t.width →
      Strategy.apply (.set_variable t lo hi) base mem (some bs) size = (Err.ParamTooLong.code, mem))
    ∧ (size < t.width →
      Strategy.apply (.set_variable t lo hi) base mem (some bs) size = (Err.ParamTooShort.code, mem))
    ∧ (size = t.width → lo ≠ hi → decodeScalar t bs < lo →
      Strategy.apply (.set_variable t lo hi) base mem (some bs) size = (Err.ValueTooLow.code, mem))
    ∧ (size = t.width → lo < hi → decodeScalar t bs > hi →
      Strategy.apply (.set_variable t lo hi) base mem (some bs) size = (Err.ValueTooHigh.code, mem))
    ∧ ((Strategy.apply (.set_variable t lo hi) base mem (some bs) size).1 = Err.OK.code ↔
      size = t.width ∧ (lo = hi ∨ (lo ≤ decodeScalar t bs ∧ decodeScalar t bs ≤ hi)))
    ∧ ((Strategy.apply (.set_variable t lo hi) base mem (some bs) size).1 = Err.OK.code →
      (Strategy.apply (.set_variable t lo hi) base mem (some bs) size).2 =
        write_bytes mem base (bs.take t.width)) := by
  refine ⟨?_, ?_, ?_, ?_, ?_, ?_⟩
  · intro h
    simp only [Strategy.apply, check_long t lo hi (some bs) size h]
    rw [if_pos (by decide)]
  · intro h
    simp only [Strategy.apply, check_short t lo hi (some bs) size h]
    rw [if_pos (by decide)]
  · intro h1 h2 h3
    simp only [Strategy.apply, check_low t lo hi bs size h1 h2 h3]
    rw [if_pos (by decide)]
  · intro h1 h2 h3
    simp only [Strategy.apply, check_high t lo hi bs size h1 h2 h3]
    rw [if_pos (by decide)]
  · rw [← check_ok_iff t lo hi bs size]
    simp only [Strategy.apply]
    by_cases hc : check t lo hi (some bs) size = Err.OK.code
    · rw [if_neg (not_not_intro hc)]
      simpa using hc
    · rw [if_pos hc]
  · intro h
    simp only [Strategy.apply] at h ⊢
    by_cases hc : check t lo hi (some bs) size = Err.OK.code
    · rw [if_neg (not_not_intro hc)]
      rfl
    · rw [if_pos hc] at h
      exact absurd h hc

/-- Witness for C5: writing the byte 5 through a u8 strategy with range
1..10 succeeds and stores the byte. -/
theorem C5_witness :
    (Strategy.apply (.set_variable .u8 1 10) 0 [0, 9] (some [5]) 1).1 = Err.OK.code :=
  ((C5_scalar_set_spec .u8 1 10 0 [0, 9] [5] 1 rfl).2.2.2.2.1).mpr
    ⟨rfl, Or.inr (by constructor <;> decide)⟩

/-- Claim C6: on an Array object of N elements with a bound data pointer,
get(0) yields one byte holding N and returns 1; get(k) for 1 up to N returns
type_size(type) and copies those bytes of element k from the backing block;
get(N+1) fails with FieldNotFound. -/
theorem C6_array_get (o : Object) (rmin rmax : Int) (names : List (List Char))
    (mem buffer : List Nat) (size : Nat)
    (hp : o.info.payload = .arr rmin rmax names) (hd : o.data = some mem) :
    (o.get 0 buffer size = ((1 : Int), write_bytes buffer 0 [o.info.nelem]))
    ∧ (∀ k, 1 ≤ k → k ≤ o.info.nelem →
      o.get k buffer size =
        ((type_size o.info.type : Int),
          write_bytes buffer 0
            (read_bytes mem (o.info.data_offset + type_size o.info.type * (k - 1))
              (type_size o.info.type))))
    ∧ (o.get (o.info.nelem + 1) buffer size = (Err.FieldNotFound.code, buffer)) := by
  refine ⟨?_, ?_, ?_⟩
  · simp only [Object.get, hd, hp]
    simp
  · intro k hk1 hk2
    simp only [Object.get, hd, hp]
    rw [if_pos hk2, if_neg (by omega)]
  · simp only [Object.get, hd, hp]
    rw [if_neg (by omega)]

/-- Witness for C6: the two-element array fixture answers its count and its
second element. -/
theorem C6_witness :
    exArrObj.get 0 [9, 9] 5 = ((1 : Int), [2, 9])
    ∧ exArrObj.get 2 [9, 9] 5 = ((1 : Int), [20, 9]) := by
  have h := C6_array_get exArrObj 0 0 ["a".toList, "b".toList] [10, 20] [9, 9] 5 rfl rfl
  exact ⟨h.1.trans (by decide), (h.2.1 2 (by decide) (by decide)).trans (by decide)⟩

/-- Claim C10: on an Object whose Info is a Record bound to
Record::detail::set_data, set(0) answers ReadOnly, set(k) with k above nelem
answers FieldNotFound, and set(k) for 1 up to nelem returns the result of the
set_function bound into field k-1, applied to the record object. -/
theorem C10_record_set_dispatch (o : Object) (fields : List Field)
    (hp : o.info.payload = .record fields) (hset : o.info.set_function = .record_set_data)
    (data : Option (List Nat)) (size : Nat) :
    (o.set 0 data size = (Err.ReadOnly.code, o.mem))
    ∧ (∀ k, k > o.info.nelem → o.set k data size = (Err.FieldNotFound.code, o.mem))
    ∧ (∀ k, 1 ≤ k → k ≤ o.info.nelem →
      o.set k data size =
        Strategy.apply (estd.lget fields (k - 1)).set_function o.info.data_offset o.mem data size) := by
  have hot : o.info.otype = ClassId.Record := by simp [Info.otype, hp]
  refine ⟨?_, ?_, ?_⟩
  · simp only [Object.set, hset, SetFun.apply, hot, hp]
    simp
  · intro k hk
    simp only [Object.set, hset, SetFun.apply, hot, hp]
    rw [if_pos (by simp; omega)]
  · intro k hk1 hk2
    simp only [Object.set, hset, SetFun.apply, hot, hp]
    rw [if_neg (by simp; omega), if_neg (by omega)]

/-- Witness for C10: on the record fixture, set(0) is refused ReadOnly,
set(3) is FieldNotFound, and set(2) is delegated to the read-only strategy of
the flags field. -/
theorem C10_witness :
    exRecObj.set 0 (some [1]) 1 = (Err.ReadOnly.code, [0, 0, 5])
    ∧ exRecObj.set 3 (some [1]) 1 = (Err.FieldNotFound.code, [0, 0, 5])
    ∧ exRecObj.set 2 (some [1]) 1 = (Err.ReadOnly.code, [0, 0, 5]) := by
  have h := C10_record_set_dispatch exRecObj exRecFields rfl rfl
  exact ⟨(h (some [1]) 1).1.trans (by decide),
    ((h (some [1]) 1).2.1 3 (by decide)).trans (by decide),
    ((h (some [1]) 1).2.2 2 (by decide) (by decide)).trans (by decide)⟩

/-- Claim C1 (code bug): the Array branch of Dictionary::query compares the
one-based subIdx against nelem instead of nelem + 1. On the two-element
array fixture (names a, b): a query for a name that matches no element
returns OK with the out-of-range subIdx nelem + 1, and a query for the last
element name returns FieldNotFound. -/
theorem C1_array_query_off_by_one :
    (exArrDict.query (mkQuery "arr.zz".toList)).1 = Err.OK.code
    ∧ (exArrDict.query (mkQuery "arr.zz".toList)).2.subIdx = 3
    ∧ (exArrDict.query (mkQuery "arr.b".toList)).1 = Err.FieldNotFound.code := by
  refine ⟨by decide, by decide, by decide⟩

/-- Claim C2 (code bug): for a record, Object::info(k) keeps the data_offset
of the record itself instead of the declared offset of field k-1 (the name
and size are right, and out-of-range sub-indices give a null name): on the
record fixture, field 1 declares offset 2 but info(2) reports offset 0. -/
theorem C2_record_info_offset :
    (exRecObj.info_at 2).name = some "flags".toList
    ∧ (exRecObj.info_at 2).size = 1
    ∧ (exRecObj.info_at 2).offset = 0
    ∧ (estd.lget exRecFields 1).data_offset = 2
    ∧ (exRecObj.info_at 0).name = none
    ∧ (exRecObj.info_at 3).name = none := by
  refine ⟨by decide, by decide, by decide, by decide, by decide, by decide⟩

/-- Claim C3 (code bug): the whole-object read copies the backing bytes only
when data_size is strictly below the buffer capacity: with the one-byte
variable fixture (backing byte 42), a capacity-1 buffer comes back unwritten
even though the call returns 1, while a capacity-2 buffer receives the byte;
a non-zero sub-index fails with FieldNotFound. -/
theorem C3_variable_get_exact_capacity :
    exVarObj.mem = [42]
    ∧ exVarObj.get 0 [0] 1 = ((1 : Int), [0])
    ∧ exVarObj.get 0 [0, 0] 2 = ((1 : Int), [42, 0])
    ∧ exVarObj.get 2 [0] 1 = (Err.FieldNotFound.code, [0]) := by
  refine ⟨by decide, by decide, by decide, by decide⟩

/-- Claim C9 (code bug): set followed by get does not return the written
bytes when the read buffer capacity equals data_size (exactly what the typed
convenience overload get(subIdx, T) passes): on the variable fixture, set(0)
of the byte 7 succeeds, but a capacity-1 get(0) returns 1 with the buffer
left unwritten. -/
theorem C9_roundtrip_exact_capacity :
    exVarObj.set 0 (some [7]) 1 = (Err.OK.code, [7])
    ∧ ({ exVarObj with data := some (exVarObj.set 0 (some [7]) 1).2 } : Object).get 0 [0] 1
        = ((1 : Int), [0]) := by
  refine ⟨by decide, by decide⟩

/-- Claim C4 (counterexample): the Query constructor does not trim the
whitespace surrounding both parts: on the input with spaces around the
separator, the object name keeps its trailing space. -/
theorem C4_counterexample :
    (mkQuery " motor . speed ".toList).object_name ≠ "motor".toList := by decide

namespace estd

theorem lget_set_self [Inhabited α] (l : List α) (i : Nat) (x : α) (h : i < l.length) :
    lget (l.set i x) i = x := by
  induction l generalizing i with
  | nil => simp at h
  | cons a t ih =>
    cases i with
    | zero => rfl
    | succ n => exact ih n (by simpa using h)

theorem lget_set_ne [Inhabited α] (l : List α) (i j : Nat) (x : α) (h : i ≠ j) :
    lget (l.set i x) j = lget l j := by
  induction l generalizing i j with
  | nil => rfl
  | cons a t ih =>
    cases i with
    | zero =>
      cases j with
      | zero => exact absurd rfl h
      | succ m => rfl
    | succ n =>
      cases j with
      | zero => rfl
      | succ m => exact ih n m (by omega)

theorem set_lget_self [Inhabited α] (l : List α) (i : Nat) :
    l.set i (lget l i) = l := by
  induction l generalizing i with
  | nil => rfl
  | cons a t ih =>
    cases i with
    | zero => rfl
    | succ n => simpa [List.set] using ih n

theorem cons_set_perm [Inhabited α] (l : List α) (m : Nat) (x : α) (h : m < l.length) :
    (lget l m :: l.set m x).Perm (x :: l) := by
  induction l generalizing m with
  | nil => simp at h
  | cons a t ih =>
    cases m with
    | zero => exact List.Perm.swap x a t
    | succ n =>
      have h1 : (lget t n :: a :: t.set n x).Perm (a :: lget t n :: t.set n x) :=
        List.Perm.swap a (lget t n) _
      have h2 : (a :: lget t n :: t.set n x).Perm (a :: x :: t) :=
        (ih n (by simpa using h)).cons a
      have h3 : (a :: x :: t).Perm (x :: a :: t) := List.Perm.swap x a t
      exact ((h1.trans h2).trans h3)

theorem set_set_perm [Inhabited α] (l : List α) (i j : Nat) (x : α)
    (hi : i < l.length) (hj : j < l.length) :
    ((l.set i (lget l j)).set j x).Perm (l.set i x) := by
  induction l generalizing i j with
  | nil => simp at hi
  | cons a t ih =>
    cases i with
    | zero =>
      cases j with
      | zero => simp [lget]
      | succ n =>
        simpa [lget] using cons_set_perm t n x (by simpa using hj)
    | succ m =>
      cases j with
      | zero =>
        have hm : m < t.length := by simpa using hi
        have h2 := cons_set_perm (t.set m a) m x (by simpa using hm)
        rw [lget_set_self t m a hm, List.set_set] at h2
        simpa [lget] using h2.symm
      | succ n =>
        simpa [lget] using (ih m n (by simpa using hi) (by simpa using hj)).cons a

theorem max_child_ge [Inhabited α] (lt : α → α → Bool) (l : List α) (len c : Nat) :
    2 * c + 1 ≤ max_child lt l len c := by
  simp only [max_child]
  split <;> omega

theorem max_child_lt [Inhabited α] (lt : α → α → Bool) (l : List α) (len c : Nat)
    (h : 2 * c + 1 < len) : max_child lt l len c < len := by
  simp only [max_child]
  split
  next hb =>
    simp only [Bool.and_eq_true, decide_eq_true_eq] at hb
    omega
  next _ => omega

theorem max_child_children [Inhabited α] (lt : α → α → Bool) (l : List α) (len c : Nat) :
    max_child lt l len c = 2 * c + 1 ∨ max_child lt l len c = 2 * c + 2 := by
  simp only [max_child]
  split <;> omega

theorem max_child_spec [Inhabited α] (key : α → Nat) (l : List α) (len c : Nat) :
    ∀ c', (c' = 2 * c + 1 ∨ c' = 2 * c + 2) → c' < len →
      key (lget l c') ≤ key (lget l (max_child (key_lt key) l len c)) := by
  intro c' hc' hlt
  have he : 2 * c + 1 + 1 = 2 * c + 2 := rfl
  simp only [max_child, key_lt, he]
  split
  next h =>
    simp only [he, Bool.and_eq_true, decide_eq_true_eq] at h
    rcases hc' with rfl | rfl
    · exact le_of_lt h.2
    · exact le_refl _
  next h =>
    simp only [he, Bool.and_eq_true, decide_eq_true_eq, not_and, Nat.not_lt] at h
    rcases hc' with rfl | rfl
    · exact le_refl _
    · exact h hlt

end estd

namespace estd

theorem lget_set_set [Inhabited α] (l : List α) (cur child : Nat) (b t : α) (x : Nat)
    (hcur : cur < l.length) (hchild : child < l.length) (hne : cur ≠ child) :
    lget ((l.set cur b).set child t) x =
      if x = child then t else if x = cur then b else lget l x := by
  by_cases h1 : x = child
  · subst h1
    rw [lget_set_self _ _ _ (by simpa using hchild), if_pos rfl]
  · rw [lget_set_ne _ child x t (fun he => h1 he.symm), if_neg h1]
    by_cases h2 : x = cur
    · subst h2
      rw [lget_set_self _ _ _ hcur, if_pos rfl]
    · rw [lget_set_ne _ cur x b (fun he => h2 he.symm), if_neg h2]

theorem sift_step_pairs [Inhabited α] (key : α → Nat) (len s : Nat) (top : α)
    (l : List α) (cur child : Nat)
    (hlen : len ≤ l.length)
    (hcc : cur < child) (hchild : child < len)
    (hch : child = 2 * cur + 1 ∨ child = 2 * cur + 2)
    (hmax : ∀ c, (c = 2 * cur + 1 ∨ c = 2 * cur + 2) → c < len →
      key (lget l c) ≤ key (lget l child))
    (htop : key top ≤ key (lget l child))
    (hA : ∀ p c, s ≤ p → (c = 2 * p + 1 ∨ c = 2 * p + 2) → c < len → p ≠ cur →
      key (lget (l.set cur top) c) ≤ key (lget (l.set cur top) p))
    (hC : cur = s ∨ ∀ c, (c = 2 * cur + 1 ∨ c = 2 * cur + 2) → c < len →
      key (lget l c) ≤ key (lget l ((cur - 1) / 2))) :
    ∀ p c, s ≤ p → (c = 2 * p + 1 ∨ c = 2 * p + 2) → c < len → p ≠ child →
      key (lget ((l.set cur (lget l child)).set child top) c) ≤
        key (lget ((l.set cur (lget l child)).set child top) p) := by
  intro p c hp hc hclen hpch
  have hcur_len : cur < l.length := by omega
  have hchild_len : child < l.length := by omega
  have hne : cur ≠ child := by omega
  rw [lget_set_set l cur child _ top c hcur_len hchild_len hne,
    lget_set_set l cur child _ top p hcur_len hchild_len hne]
  rw [if_neg hpch]
  by_cases hpcur : p = cur
  · rw [if_pos hpcur]
    by_cases hcchild : c = child
    · rw [if_pos hcchild]
      exact htop
    · rw [if_neg hcchild, if_neg (by omega : ¬c = cur)]
      subst hpcur
      exact hmax c hc hclen
  · rw [if_neg hpcur]
    by_cases hccur : c = cur
    · rw [if_neg (by omega : ¬c = child), if_pos hccur]
      rcases hC with hCs | hCr
      · exfalso
        omega
      · have hpeq : p = (cur - 1) / 2 := by omega
        rw [hpeq]
        exact hCr child hch hchild
    · by_cases hcchild : c = child
      · exact absurd hcchild (by omega)
      · rw [if_neg hcchild, if_neg hccur]
        have h := hA p c hp hc hclen hpcur
        rwa [lget_set_ne l cur c top (by omega), lget_set_ne l cur p top (by omega)] at h

end estd

namespace estd

theorem sift_place_lheap [Inhabited α] (key : α → Nat) (len s : Nat) (top : α)
    (l : List α) (cur child : Nat)
    (hlen : len ≤ l.length)
    (hcc : cur < child) (hchild : child < len)
    (hch : child = 2 * cur + 1 ∨ child = 2 * cur + 2)
    (hmax : ∀ c, (c = 2 * cur + 1 ∨ c = 2 * cur + 2) → c < len →
      key (lget l c) ≤ key (lget l child))
    (htop : key top ≤ key (lget l child))
    (hA : ∀ p c, s ≤ p → (c = 2 * p + 1 ∨ c = 2 * p + 2) → c < len → p ≠ cur →
      key (lget (l.set cur top) c) ≤ key (lget (l.set cur top) p))
    (hC : cur = s ∨ ∀ c, (c = 2 * cur + 1 ∨ c = 2 * cur + 2) → c < len →
      key (lget l c) ≤ key (lget l ((cur - 1) / 2)))
    (hctop : ∀ c, (c = 2 * child + 1 ∨ c = 2 * child + 2) → c < len →
      key (lget l c) ≤ key top) :
    lheap key ((l.set cur (lget l child)).set child top) len s := by
  intro p c hp hc hclen
  by_cases hpch : p = child
  · subst hpch
    rw [lget_set_set l cur p _ top c (by omega) (by omega) (by omega),
      lget_set_set l cur p _ top p (by omega) (by omega) (by omega)]
    rw [if_pos rfl, if_neg (by omega : ¬c = p), if_neg (by omega : ¬c = cur)]
    exact hctop c hc hclen
  · exact sift_step_pairs key len s top l cur child hlen hcc hchild hch hmax htop hA hC
      p c hp hc hclen hpch

theorem sift_loop_lheap [Inhabited α] (key : α → Nat) (len s : Nat) (top : α)
    (l : List α) (cur child : Nat)
    (hlen : len ≤ l.length)
    (hs : s ≤ cur) (hcc : cur < child) (hchild : child < len)
    (hch : child = 2 * cur + 1 ∨ child = 2 * cur + 2)
    (hmax : ∀ c, (c = 2 * cur + 1 ∨ c = 2 * cur + 2) → c < len →
      key (lget l c) ≤ key (lget l child))
    (htop : key top ≤ key (lget l child))
    (hA : ∀ p c, s ≤ p → (c = 2 * p + 1 ∨ c = 2 * p + 2) → c < len → p ≠ cur →
      key (lget (l.set cur top) c) ≤ key (lget (l.set cur top) p))
    (hC : cur = s ∨ ∀ c, (c = 2 * cur + 1 ∨ c = 2 * cur + 2) → c < len →
      key (lget l c) ≤ key (lget l ((cur - 1) / 2))) :
    lheap key (sift_loop (key_lt key) len top l cur child) len s := by
  rw [sift_loop]
  dsimp only
  split
  next hbreak =>
    exact sift_place_lheap key len s top l cur child hlen hcc hchild hch hmax htop hA hC
      (fun c hc hclen => by omega)
  next hbreak =>
    have hc2ge : 2 * child + 1 ≤ max_child (key_lt key) (l.set cur (lget l child)) len child :=
      max_child_ge _ _ _ _
    have hc2lt : max_child (key_lt key) (l.set cur (lget l child)) len child < len :=
      max_child_lt _ _ _ _ (by omega)
    have hl'len : (l.set cur (lget l child)).length = l.length := by simp
    split
    next hlt =>
      apply sift_place_lheap key len s top l cur child hlen hcc hchild hch hmax htop hA hC
      intro c hc hclen
      have h1 := max_child_spec key (l.set cur (lget l child)) len child c hc hclen
      rw [lget_set_ne l cur c _ (by omega)] at h1
      have h2 : key (lget (l.set cur (lget l child))
          (max_child (key_lt key) (l.set cur (lget l child)) len child)) < key top := by
        simpa [key_lt] using hlt
      omega
    next hlt =>
      apply sift_loop_lheap key len s top (l.set cur (lget l child)) child
        (max_child (key_lt key) (l.set cur (lget l child)) len child)
        (by omega) (by omega) (by omega) hc2lt
        (max_child_children _ _ _ _)
        (max_child_spec key (l.set cur (lget l child)) len child)
        (by simpa [key_lt] using hlt)
      · intro p c hp hc hclen hpch
        exact sift_step_pairs key len s top l cur child hlen hcc hchild hch hmax htop hA hC
          p c hp hc hclen hpch
      · refine Or.inr ?_
        intro c hc hclen
        have hpeq : (child - 1) / 2 = cur := by omega
        rw [hpeq, lget_set_self l cur _ (by omega), lget_set_ne l cur c _ (by omega)]
        have h := hA child c (by omega) hc hclen (by omega)
        rwa [lget_set_ne l cur c top (by omega), lget_set_ne l cur child top (by omega)] at h
termination_by (len - 2) / 2 + 2 - child
decreasing_by omega

end estd

namespace estd

theorem sift_loop_length [Inhabited α] (lt : α → α → Bool) (len : Nat) (top : α)
    (l : List α) (cur child : Nat) :
    (sift_loop lt len top l cur child).length = l.length := by
  rw [sift_loop]
  dsimp only
  split
  · simp
  · split
    · simp
    · rw [sift_loop_length lt len top (l.set cur (lget l child)) child
        (max_child lt (l.set cur (lget l child)) len child)]
      simp
termination_by (len - 2) / 2 + 2 - child
decreasing_by
  have := max_child_ge lt (l.set cur (lget l child)) len child
  omega

theorem sift_loop_out [Inhabited α] (lt : α → α → Bool) (len : Nat) (top : α)
    (l : List α) (cur child : Nat) (hcc : cur < child) (hchild : child < len) :
    ∀ j, len ≤ j → lget (sift_loop lt len top l cur child) j = lget l j := by
  intro j hj
  rw [sift_loop]
  dsimp only
  split
  · rw [lget_set_ne _ child j _ (by omega), lget_set_ne _ cur j _ (by omega)]
  next hbreak =>
    split
    · rw [lget_set_ne _ child j _ (by omega), lget_set_ne _ cur j _ (by omega)]
    · have hc2ge : 2 * child + 1 ≤ max_child lt (l.set cur (lget l child)) len child :=
        max_child_ge _ _ _ _
      have hc2 : max_child lt (l.set cur (lget l child)) len child < len :=
        max_child_lt _ _ _ _ (by omega)
      rw [sift_loop_out lt len top (l.set cur (lget l child)) child
        (max_child lt (l.set cur (lget l child)) len child) (by omega) hc2 j hj,
        lget_set_ne _ cur j _ (by omega)]
termination_by (len - 2) / 2 + 2 - child
decreasing_by
  have := max_child_ge lt (l.set cur (lget l child)) len child
  omega

theorem sift_loop_mem [Inhabited α] (lt : α → α → Bool) (len : Nat) (top : α)
    (l : List α) (cur child : Nat)
    (hcc : cur < child) (hchild : child < len) (hlen : len ≤ l.length) :
    ∀ i, i < len →
      (∃ j, j < len ∧ lget (sift_loop lt len top l cur child) i = lget l j)
        ∨ lget (sift_loop lt len top l cur child) i = top := by
  intro i hi
  rw [sift_loop]
  dsimp only
  split
  next hbreak =>
    by_cases hic : i = child
    · right
      rw [hic, lget_set_self _ _ _ (by simp; omega)]
    · left
      rw [lget_set_ne _ child i _ (fun he => hic he.symm)]
      by_cases hicur : i = cur
      · exact ⟨child, hchild, by rw [hicur, lget_set_self _ _ _ (by omega)]⟩
      · exact ⟨i, hi, by rw [lget_set_ne _ cur i _ (fun he => hicur he.symm)]⟩
  next hbreak =>
    split
    next hlt =>
      by_cases hic : i = child
      · right
        rw [hic, lget_set_self _ _ _ (by simp; omega)]
      · left
        rw [lget_set_ne _ child i _ (fun he => hic he.symm)]
        by_cases hicur : i = cur
        · exact ⟨child, hchild, by rw [hicur, lget_set_self _ _ _ (by omega)]⟩
        · exact ⟨i, hi, by rw [lget_set_ne _ cur i _ (fun he => hicur he.symm)]⟩
    next hlt =>
      have hc2ge : 2 * child + 1 ≤ max_child lt (l.set cur (lget l child)) len child :=
        max_child_ge _ _ _ _
      have hc2 : max_child lt (l.set cur (lget l child)) len child < len :=
        max_child_lt _ _ _ _ (by omega)
      have hrec := sift_loop_mem lt len top (l.set cur (lget l child)) child
        (max_child lt (l.set cur (lget l child)) len child) (by omega) hc2
        (by simp; omega) i hi
      rcases hrec with ⟨j, hjlen, he⟩ | he
      · by_cases hjcur : j = cur
        · left
          refine ⟨child, hchild, ?_⟩
          rw [he, hjcur, lget_set_self _ _ _ (by omega)]
        · left
          refine ⟨j, hjlen, ?_⟩
          rw [he, lget_set_ne _ cur j _ (fun h2 => hjcur h2.symm)]
      · right
        exact he
termination_by (len - 2) / 2 + 2 - child
decreasing_by
  have := max_child_ge lt (l.set cur (lget l child)) len child
  omega

theorem sift_loop_perm [Inhabited α] (lt : α → α → Bool) (len : Nat) (top : α)
    (l : List α) (cur child : Nat)
    (hcc : cur < child) (hchild : child < len) (hlen : len ≤ l.length) :
    (sift_loop lt len top l cur child).Perm (l.set cur top) := by
  rw [sift_loop]
  dsimp only
  split
  · exact set_set_perm l cur child top (by omega) (by omega)
  next hbreak =>
    split
    · exact set_set_perm l cur child top (by omega) (by omega)
    next hlt =>
      have hc2ge : 2 * child + 1 ≤ max_child lt (l.set cur (lget l child)) len child :=
        max_child_ge _ _ _ _
      have hc2 : max_child lt (l.set cur (lget l child)) len child < len :=
        max_child_lt _ _ _ _ (by omega)
      have hrec := sift_loop_perm lt len top (l.set cur (lget l child)) child
        (max_child lt (l.set cur (lget l child)) len child) (by omega) hc2 (by simp; omega)
      exact hrec.trans (set_set_perm l cur child top (by omega) (by omega))
termination_by (len - 2) / 2 + 2 - child
decreasing_by
  have := max_child_ge lt (l.set cur (lget l child)) len child
  omega

end estd

namespace estd

theorem sift_down_length [Inhabited α] (lt : α → α → Bool) (l : List α) (len s : Nat) :
    (sift_down lt l len s).length = l.length := by
  rw [sift_down]
  dsimp only
  split
  · rfl
  · split
    · rfl
    · exact sift_loop_length lt len (lget l s) l s (max_child lt l len s)

theorem sift_down_out [Inhabited α] (lt : α → α → Bool) (l : List α) (len s : Nat) :
    ∀ j, len ≤ j → lget (sift_down lt l len s) j = lget l j := by
  intro j hj
  rw [sift_down]
  dsimp only
  split
  · rfl
  next hguard =>
    simp only [Bool.or_eq_true, decide_eq_true_eq, not_or, Nat.not_lt] at hguard
    split
    · rfl
    · exact sift_loop_out lt len (lget l s) l s (max_child lt l len s)
        (by have := max_child_ge lt l len s; omega)
        (max_child_lt lt l len s (by omega)) j hj

theorem sift_down_mem [Inhabited α] (lt : α → α → Bool) (l : List α) (len s : Nat)
    (hs : s < len) (hlen : len ≤ l.length) :
    ∀ i, i < len → ∃ j, j < len ∧ lget (sift_down lt l len s) i = lget l j := by
  intro i hi
  rw [sift_down]
  dsimp only
  split
  · exact ⟨i, hi, rfl⟩
  next hguard =>
    simp only [Bool.or_eq_true, decide_eq_true_eq, not_or, Nat.not_lt] at hguard
    split
    · exact ⟨i, hi, rfl⟩
    · have h := sift_loop_mem lt len (lget l s) l s (max_child lt l len s)
        (by have := max_child_ge lt l len s; omega)
        (max_child_lt lt l len s (by omega)) hlen i hi
      rcases h with ⟨j, hjlen, he⟩ | he
      · exact ⟨j, hjlen, he⟩
      · exact ⟨s, hs, he⟩

theorem sift_down_perm [Inhabited α] (lt : α → α → Bool) (l : List α) (len s : Nat)
    (hlen : len ≤ l.length) :
    (sift_down lt l len s).Perm l := by
  rw [sift_down]
  dsimp only
  split
  · exact List.Perm.refl l
  next hguard =>
    simp only [Bool.or_eq_true, decide_eq_true_eq, not_or, Nat.not_lt] at hguard
    split
    · exact List.Perm.refl l
    · have h := sift_loop_perm lt len (lget l s) l s (max_child lt l len s)
        (by have := max_child_ge lt l len s; omega)
        (max_child_lt lt l len s (by omega)) hlen
      rwa [set_lget_self l s] at h

theorem sift_down_lheap [Inhabited α] (key : α → Nat) (l : List α) (len s : Nat)
    (hlen : len ≤ l.length) (H : lheap key l len (s + 1)) :
    lheap key (sift_down (key_lt key) l len s) len s := by
  rw [sift_down]
  dsimp only
  split
  next hguard =>
    simp only [Bool.or_eq_true, decide_eq_true_eq] at hguard
    intro p c hp hc hclen
    by_cases hps : p = s
    · exfalso
      omega
    · exact H p c (by omega) hc hclen
  next hguard =>
    simp only [Bool.or_eq_true, decide_eq_true_eq, not_or, Nat.not_lt] at hguard
    split
    next hlt =>
      intro p c hp hc hclen
      by_cases hps : p = s
      · subst hps
        have h1 := max_child_spec key l len p c hc hclen
        have h2 : key (lget l (max_child (key_lt key) l len p)) < key (lget l p) := by
          simpa [key_lt] using hlt
      
        omega
      · exact H p c (by omega) hc hclen
    next hlt =>
      apply sift_loop_lheap key len s (lget l s) l s (max_child (key_lt key) l len s)
        hlen (le_refl s)
        (by have := max_child_ge (key_lt key) l len s; omega)
        (max_child_lt (key_lt key) l len s (by omega))
        (max_child_children (key_lt key) l len s)
        (max_child_spec key l len s)
        (by simpa [key_lt] using hlt)
      · intro p c hp hc hclen hpns
        rw [set_lget_self l s]
        exact H p c (by omega) hc hclen
      · exact Or.inl rfl

end estd

namespace estd

theorem make_heap_loop_length [Inhabited α] (lt : α → α → Bool) (len : Nat) :
    ∀ (s : Nat) (l : List α), (make_heap_loop lt len l s).length = l.length := by
  intro s
  induction s with
  | zero => intro l; exact sift_down_length lt l len 0
  | succ n ih =>
    intro l
    rw [make_heap_loop, ih (sift_down lt l len (n + 1)), sift_down_length]

theorem make_heap_loop_perm [Inhabited α] (lt : α → α → Bool) (len : Nat) :
    ∀ (s : Nat) (l : List α), len ≤ l.length → (make_heap_loop lt len l s).Perm l := by
  intro s
  induction s with
  | zero => intro l hlen; exact sift_down_perm lt l len 0 hlen
  | succ n ih =>
    intro l hlen
    rw [make_heap_loop]
    exact (ih (sift_down lt l len (n + 1)) (by rw [sift_down_length]; omega)).trans
      (sift_down_perm lt l len (n + 1) hlen)

theorem make_heap_loop_lheap [Inhabited α] (key : α → Nat) (len : Nat) :
    ∀ (s : Nat) (l : List α), len ≤ l.length → lheap key l len (s + 1) →
      lheap key (make_heap_loop (key_lt key) len l s) len 0 := by
  intro s
  induction s with
  | zero => intro l hlen H; exact sift_down_lheap key l len 0 hlen H
  | succ n ih =>
    intro l hlen H
    rw [make_heap_loop]
    exact ih (sift_down (key_lt key) l len (n + 1))
      (by rw [sift_down_length]; omega)
      (sift_down_lheap key l len (n + 1) hlen H)

theorem make_heap_length [Inhabited α] (lt : α → α → Bool) (l : List α) :
    (make_heap lt l).length = l.length := by
  rw [make_heap]
  split
  · rfl
  · exact make_heap_loop_length lt l.length ((l.length - 2) / 2) l

theorem make_heap_perm [Inhabited α] (lt : α → α → Bool) (l : List α) :
    (make_heap lt l).Perm l := by
  rw [make_heap]
  split
  · exact List.Perm.refl l
  · exact make_heap_loop_perm lt l.length ((l.length - 2) / 2) l (le_refl _)

theorem make_heap_lheap [Inhabited α] (key : α → Nat) (l : List α) :
    lheap key (make_heap (key_lt key) l) l.length 0 := by
  rw [make_heap]
  split
  next h =>
    intro p c hp hc hclen
    omega
  next h =>
    apply make_heap_loop_lheap key l.length ((l.length - 2) / 2) l (le_refl _)
    intro p c hp hc hclen
    omega

theorem lheap_root_max [Inhabited α] (key : α → Nat) (l : List α) (len : Nat)
    (H : lheap key l len 0) :
    ∀ i, i < len → key (lget l i) ≤ key (lget l 0) := by
  intro i
  induction i using Nat.strong_induction_on with
  | _ i ih =>
    intro hi
    match i with
    | 0 => exact le_refl _
    | Nat.succ m =>
      have h1 := H (m / 2) (m + 1) (Nat.zero_le _) (by omega) hi
      exact h1.trans (ih (m / 2) (by omega) (by omega))

theorem pop_heap_facts [Inhabited α] (key : α → Nat) (l : List α) (n : Nat)
    (hlen : n + 2 ≤ l.length) (Hh : lheap key l (n + 2) 0) :
    (pop_heap (key_lt key) l (n + 2)).length = l.length
    ∧ lheap key (pop_heap (key_lt key) l (n + 2)) (n + 1) 0
    ∧ (∀ j, n + 1 ≤ j → j < l.length →
        lget (pop_heap (key_lt key) l (n + 2)) j = if j = n + 1 then lget l 0 else lget l j)
    ∧ (∀ i, i < n + 1 → ∃ j, j < n + 2 ∧
        lget (pop_heap (key_lt key) l (n + 2)) i = lget l j) := by
  have hswap : iter_swap l 0 (n + 1) = (l.set 0 (lget l (n + 1))).set (n + 1) (lget l 0) := rfl
  have hswap_len : (iter_swap l 0 (n + 1)).length = l.length := by
    rw [hswap]; simp
  have hpop : pop_heap (key_lt key) l (n + 2) =
      sift_down (key_lt key) (iter_swap l 0 (n + 1)) (n + 1) 0 := by
    rw [pop_heap, if_pos (by omega)]
    simp
  refine ⟨?_, ?_, ?_, ?_⟩
  · rw [hpop, sift_down_length, hswap_len]
  · rw [hpop]
    apply sift_down_lheap key (iter_swap l 0 (n + 1)) (n + 1) 0 (by omega)
    intro p c hp hc hclen
    rw [hswap, lget_set_set l 0 (n + 1) _ _ c (by omega) (by omega) (by omega),
      lget_set_set l 0 (n + 1) _ _ p (by omega) (by omega) (by omega)]
    rw [if_neg (by omega : ¬c = n + 1), if_neg (by omega : ¬c = 0),
      if_neg (by omega : ¬p = n + 1), if_neg (by omega : ¬p = 0)]
    exact Hh p c (Nat.zero_le _) hc (by omega)
  · intro j hj1 hj2
    rw [hpop, sift_down_out (key_lt key) _ (n + 1) 0 j hj1, hswap,
      lget_set_set l 0 (n + 1) _ _ j (by omega) (by omega) (by omega)]
    by_cases hje : j = n + 1
    · rw [if_pos hje, if_pos hje]
    · rw [if_neg hje, if_neg hje, if_neg (by omega : ¬j = 0)]
  · intro i hi
    rw [hpop, hswap]
    have h := sift_down_mem (key_lt key) ((l.set 0 (lget l (n + 1))).set (n + 1) (lget l 0))
      (n + 1) 0 (by omega) (by simp; omega) i hi
    obtain ⟨j, hjlen, he⟩ := h
    rw [lget_set_set l 0 (n + 1) _ _ j (by omega) (by omega) (by omega)] at he
    by_cases hj0 : j = 0
    · refine ⟨n + 1, by omega, ?_⟩
      rw [he, if_neg (by omega : ¬j = n + 1), if_pos hj0]
    · refine ⟨j, by omega, ?_⟩
      rw [he, if_neg (by omega : ¬j = n + 1), if_neg hj0]

end estd

namespace estd

theorem pop_heap_perm [Inhabited α] (lt : α → α → Bool) (l : List α) (len : Nat)
    (hlen : len ≤ l.length) :
    (pop_heap lt l len).Perm l := by
  rw [pop_heap]
  split
  next h =>
    have h1 := sift_down_perm lt (iter_swap l 0 (len - 1)) (len - 1) 0
      (by simp [iter_swap]; omega)
    have h2 : (iter_swap l 0 (len - 1)).Perm l := by
      have h3 := set_set_perm l 0 (len - 1) (lget l 0) (by omega) (by omega)
      rw [set_lget_self l 0] at h3
      exact h3
    exact h1.trans h2
  next h => exact List.Perm.refl l

theorem sort_heap_loop_perm [Inhabited α] (lt : α → α → Bool) :
    ∀ (n : Nat) (l : List α), n ≤ l.length → (sort_heap_loop lt l n).Perm l := by
  intro n
  induction n using Nat.strong_induction_on with
  | _ n ih =>
    intro l hlen
    match n with
    | 0 => exact List.Perm.refl l
    | 1 => exact List.Perm.refl l
    | Nat.succ (Nat.succ m) =>
      rw [sort_heap_loop]
      have hperm := pop_heap_perm lt l (m + 2) hlen
      exact (ih (m + 1) (by omega) (pop_heap lt l (m + 2))
        (by rw [hperm.length_eq]; omega)).trans hperm

theorem sort_heap_loop_sorted [Inhabited α] (key : α → Nat) :
    ∀ (n : Nat) (l : List α), n ≤ l.length →
      lheap key l n 0 → sorted_from key l n → prefix_le key l n →
      sorted_from key (sort_heap_loop (key_lt key) l n) 0 := by
  intro n
  induction n using Nat.strong_induction_on with
  | _ n ih =>
    intro l hlen Hh Hs Hp
    match n with
    | 0 => exact fun i j hi hij hj => Hs i j (Nat.zero_le _) hij hj
    | 1 =>
      intro i j hi hij hj
      by_cases hi0 : 1 ≤ i
      · exact Hs i j hi0 hij hj
      · by_cases hj0 : 1 ≤ j
        · exact Hp i j (by omega) hj0 hj
        · have : i = j := by omega
          rw [this]
    | Nat.succ (Nat.succ m) =>
      obtain ⟨hL1, hL2, hL3, hL4⟩ := pop_heap_facts key l m hlen Hh
      have hmax := lheap_root_max key l (m + 2) Hh
      rw [sort_heap_loop]
      apply ih (m + 1) (by omega) (pop_heap (key_lt key) l (m + 2)) (by omega) hL2
      · intro i j hi hij hj
        rw [hL1] at hj
        rw [hL3 i (by omega) (by omega), hL3 j (by omega) (by omega)]
        by_cases hi1 : i = m + 1
        · rw [if_pos hi1]
          by_cases hj1 : j = m + 1
          · rw [if_pos hj1]
          · rw [if_neg hj1]
            exact Hp 0 j (by omega) (by omega) hj
        · rw [if_neg hi1]
          by_cases hj1 : j = m + 1
          · exfalso
            omega
          · rw [if_neg hj1]
            exact Hs i j (by omega) hij hj
      · intro i j hi hij hj
        rw [hL1] at hj
        obtain ⟨j0, hj0, he⟩ := hL4 i hi
        rw [he, hL3 j (by omega) (by omega)]
        by_cases hj1 : j = m + 1
        · rw [if_pos hj1]
          exact hmax j0 hj0
        · rw [if_neg hj1]
          exact Hp j0 j hj0 (by omega) hj

theorem sort_heap_sorted [Inhabited α] (key : α → Nat) (l : List α)
    (Hh : lheap key l l.length 0) :
    sorted_from key (sort_heap (key_lt key) l) 0 := by
  rw [sort_heap]
  apply sort_heap_loop_sorted key l.length l (le_refl _) Hh
  · intro i j hi hij hj
    omega
  · intro i j hi hij hj
    omega

theorem sort_sorted [Inhabited α] (key : α → Nat) (l : List α) :
    sorted_from key (sort (key_lt key) l) 0 := by
  rw [sort]
  apply sort_heap_sorted key (make_heap (key_lt key) l)
  rw [make_heap_length]
  exact make_heap_lheap key l

theorem sort_perm [Inhabited α] (lt : α → α → Bool) (l : List α) :
    (sort lt l).Perm l := by
  rw [sort, sort_heap]
  exact (sort_heap_loop_perm lt (make_heap lt l).length (make_heap lt l)
    (le_refl _)).trans (make_heap_perm lt l)

end estd

namespace estd

theorem lb_loop_spec [Inhabited α] (key : α → Nat) (comp : α → Nat → Bool)
    (hcomp : ∀ a x, comp a x = true ↔ key a < x) (v : Nat) (l : List α)
    (hsort : sorted_from key l 0) :
    ∀ (count first : Nat), first + count ≤ l.length →
      (∀ i, i < first → key (lget l i) < v) →
      (∀ i, first + count ≤ i → i < l.length → v ≤ key (lget l i)) →
      first ≤ lb_loop comp v l first count
      ∧ lb_loop comp v l first count ≤ first + count
      ∧ (∀ i, i < lb_loop comp v l first count → key (lget l i) < v)
      ∧ (∀ i, lb_loop comp v l first count ≤ i → i < l.length → v ≤ key (lget l i)) := by
  intro count
  induction count using Nat.strong_induction_on with
  | _ count ih =>
    intro first hfc hlow hhigh
    match count with
    | 0 =>
      rw [lb_loop]
      exact ⟨le_refl _, by omega, hlow, fun i hi => hhigh i (by omega)⟩
    | Nat.succ c =>
      rw [lb_loop]
      split
      next hcond =>
        have hcond' : key (lget l (first + (c + 1) / 2)) < v := (hcomp _ _).mp hcond
        obtain ⟨ih1, ih2, ih3, ih4⟩ := ih (c - (c + 1) / 2) (by omega)
          (first + (c + 1) / 2 + 1) (by omega)
          (fun i hi => by
            by_cases h1 : i < first
            · exact hlow i h1
            · have h2 := hsort i (first + (c + 1) / 2) (Nat.zero_le _) (by omega) (by omega)
              omega)
          (fun i hi1 hi2 => hhigh i (by omega) hi2)
        exact ⟨by omega, by omega, ih3, ih4⟩
      next hcond =>
        have hcond' : ¬key (lget l (first + (c + 1) / 2)) < v := fun h =>
          hcond ((hcomp _ _).mpr h)
        obtain ⟨ih1, ih2, ih3, ih4⟩ := ih ((c + 1) / 2) (by omega) first (by omega) hlow
          (fun i hi1 hi2 => by
            have h2 := hsort (first + (c + 1) / 2) i (Nat.zero_le _) hi1 hi2
            omega)
        exact ⟨ih1, by omega, ih3, ih4⟩

theorem lower_bound_spec [Inhabited α] (key : α → Nat) (comp : α → Nat → Bool)
    (hcomp : ∀ a x, comp a x = true ↔ key a < x) (v : Nat) (l : List α)
    (hsort : sorted_from key l 0) :
    lower_bound comp v l ≤ l.length
    ∧ (∀ i, i < lower_bound comp v l → key (lget l i) < v)
    ∧ (∀ i, lower_bound comp v l ≤ i → i < l.length → v ≤ key (lget l i)) := by
  obtain ⟨h1, h2, h3, h4⟩ := lb_loop_spec key comp hcomp v l hsort l.length 0 (by omega)
    (fun i hi => by omega) (fun i hi1 hi2 => by omega)
  exact ⟨by simpa [lower_bound] using h2, h3, h4⟩

theorem find?_eq_of_first [Inhabited α] (p : α → Bool) (l : List α) (r : Nat)
    (hr : r < l.length) (hbefore : ∀ i, i < r → p (lget l i) = false)
    (hp : p (lget l r) = true) :
    l.find? p = some (lget l r) := by
  induction l generalizing r with
  | nil => simp at hr
  | cons a t ih =>
    cases r with
    | zero =>
      have hp' : p a = true := hp
      rw [List.find?_cons_of_pos _ hp']
      rfl
    | succ m =>
      have ha : p a = false := hbefore 0 (Nat.succ_pos m)
      rw [List.find?_cons_of_neg _ (by simp [ha])]
      exact ih m (by simpa using hr)
        (fun i hi => hbefore (i + 1) (by omega)) hp

theorem lget_eq_getElem [Inhabited α] (l : List α) (i : Nat) (h : i < l.length) :
    lget l i = l[i] := by
  induction l generalizing i with
  | nil => simp at h
  | cons a t ih =>
    cases i with
    | zero => rfl
    | succ m => exact ih m (by simpa using h)

theorem find?_eq_none_of_all [Inhabited α] (p : α → Bool) (l : List α)
    (h : ∀ i, i < l.length → p (lget l i) = false) :
    l.find? p = none := by
  rw [List.find?_eq_none]
  intro x hx
  obtain ⟨i, hi, he⟩ := List.mem_iff_getElem.mp hx
  intro hpx
  have := h i hi
  rw [lget_eq_getElem l i hi, he] at this
  rw [hpx] at this
  exact Bool.true_eq_false.mp this

end estd

/-- On an address-sorted item sequence, the binary-search lookup of
Dictionary::get agrees with a linear scan for every address. -/
theorem dict_get_agrees (d : Dictionary)
    (hs : estd.sorted_from Item.address d.items 0) (a : Nat) :
    d.get a = linear_get d a := by
  obtain ⟨hble, hbefore, hafter⟩ := estd.lower_bound_spec Item.address
    (fun (l : Item) (x : Nat) => l.address < x) (fun it x => by simp) a d.items hs
  simp only [Dictionary.get, linear_get]
  by_cases hfound :
      estd.lower_bound (fun (l : Item) (a : Nat) => l.address < a) a d.items < d.items.length
      ∧ (estd.lget d.items
          (estd.lower_bound (fun (l : Item) (a : Nat) => l.address < a) a d.items)).address = a
  · rw [if_pos hfound]
    have hfind := estd.find?_eq_of_first (fun it => it.address == a) d.items
      (estd.lower_bound (fun (l : Item) (a : Nat) => l.address < a) a d.items) hfound.1
      (fun i hi => by
        have h1 := hbefore i hi
        simp only [beq_eq_false_iff_ne, ne_eq]
        omega)
      (by simp only [beq_iff_eq]; exact hfound.2)
    rw [hfind]
    simp
  · rw [if_neg hfound]
    rw [estd.find?_eq_none_of_all (fun it => it.address == a) d.items
      (fun i hi => by
        simp only [beq_eq_false_iff_ne, ne_eq]
        intro heq
        by_cases hir : i < estd.lower_bound (fun (l : Item) (a : Nat) => l.address < a) a d.items
        · have h1 := hbefore i hir
          omega
        · have hrlen :
              estd.lower_bound (fun (l : Item) (a : Nat) => l.address < a) a d.items
                < d.items.length := by omega
          have h2 := hafter _ (le_refl _) hrlen
          have h3 := hs (estd.lower_bound (fun (l : Item) (a : Nat) => l.address < a) a d.items)
            i (Nat.zero_le _) (by omega) hi
          exact hfound ⟨hrlen, by omega⟩)]
    rfl

/-- Claim C7: a TDictionary built from items in any order stores them sorted
ascending by address (and stores exactly the given items, as a permutation),
and for every address the binary-search get returns the object of the item
bearing that address when one is present and none when absent, agreeing with
a linear scan over the stored items. -/
theorem C7_dictionary_sorted_search (items : List Item) :
    estd.sorted_from Item.address (tdictionary items).items 0
    ∧ (tdictionary items).items.Perm items
    ∧ ∀ a : Nat, (tdictionary items).get a = linear_get (tdictionary items) a := by
  have hsorted : estd.sorted_from Item.address (tdictionary items).items 0 :=
    estd.sort_sorted Item.address items
  exact ⟨hsorted, estd.sort_perm compare_address items,
    fun a => dict_get_agrees (tdictionary items) hsorted a⟩

namespace estd

theorem dropWhile_all_false (p : Char → Bool) (l : List Char)
    (h : ∀ c ∈ l, p c = false) : l.dropWhile p = l := by
  cases l with
  | nil => rfl
  | cons a t =>
    rw [List.dropWhile_cons, if_neg (by simp [h a (List.mem_cons_self a t)])]

theorem takeWhile_all_true (p : Char → Bool) (l : List Char)
    (h : ∀ c ∈ l, p c = false) : l.takeWhile (fun c => !p c) = l := by
  induction l with
  | nil => rfl
  | cons x t ih =>
    rw [List.takeWhile_cons, if_pos (by simp [h x (List.mem_cons_self x t)])]
    rw [ih (fun c hc => h c (List.mem_cons_of_mem x hc))]

theorem takeWhile_append_sep (p : Char → Bool) (a b : List Char) (sep : Char)
    (ha : ∀ c ∈ a, p c = false) (hsep : p sep = true) :
    (a ++ sep :: b).takeWhile (fun c => !p c) = a := by
  induction a with
  | nil => simp [List.takeWhile_cons, hsep]
  | cons x t ih =>
    rw [List.cons_append, List.takeWhile_cons,
      if_pos (by simp [ha x (List.mem_cons_self x t)])]
    rw [ih (fun c hc => ha c (List.mem_cons_of_mem x hc))]

theorem next_token_split (p : Char → Bool) (a b : List Char) (sep : Char)
    (ha : ∀ c ∈ a, p c = false) (hsep : p sep = true) (ha0 : a ≠ []) :
    next_token p (a ++ sep :: b) = (a, b) := by
  simp only [next_token]
  have hs1 : (a ++ sep :: b).dropWhile p = a ++ sep :: b := by
    cases a with
    | nil => exact absurd rfl ha0
    | cons x t =>
      rw [List.cons_append, List.dropWhile_cons,
        if_neg (by simp [ha x (List.mem_cons_self x t)])]
  rw [hs1, takeWhile_append_sep p a b sep ha hsep]
  rw [if_pos (by simp)]
  have hsplit : a ++ sep :: b = (a ++ [sep]) ++ b := by simp
  have hlen : a.length + 1 = (a ++ [sep]).length := by simp
  rw [hsplit, hlen, List.drop_left]

theorem next_token_nosep (p : Char → Bool) (a : List Char)
    (ha : ∀ c ∈ a, p c = false) :
    next_token p a = (a, []) := by
  simp only [next_token]
  rw [dropWhile_all_false p a ha, takeWhile_all_true p a ha]
  rw [if_neg (by omega)]
  simp

end estd

/-- Claim C4 (amended): the Query constructor splits on a separator into the
text before it (object_name) and after it (subobject_name), trims the
leading whitespace of object_name and the trailing whitespace of
subobject_name (so only the whitespace surrounding the whole input is
removed, not that next to the separator), and initializes subIdx to -1; a
separator-free input becomes the object name with an empty subobject name. -/
theorem C4_query_split (a b : List Char) (sep : Char)
    (ha : ∀ c ∈ a, qissep c = false) (hb : ∀ c ∈ b, qissep c = false)
    (hsep : qissep sep = true) (ha0 : a ≠ []) :
    ((mkQuery (a ++ sep :: b)).object_name = estd.trim_start estd.isspace a
      ∧ (mkQuery (a ++ sep :: b)).subobject_name = estd.trim_end estd.isspace b
      ∧ (mkQuery (a ++ sep :: b)).subIdx = -1)
    ∧ ((mkQuery a).object_name = estd.trim_start estd.isspace a
      ∧ (mkQuery a).subobject_name = []
      ∧ (mkQuery a).subIdx = -1) := by
  constructor
  · simp only [mkQuery, estd.next_token_split qissep a b sep ha hsep ha0,
      estd.next_token_nosep qissep b hb]
    exact ⟨trivial, trivial, trivial⟩
  · simp only [mkQuery, estd.next_token_nosep qissep a ha]
    exact ⟨trivial, rfl, trivial⟩

/-- Witness for C4: the two spec examples, derived from the amended claim. -/
theorem C4_witness :
    (mkQuery "motor.speed".toList).object_name = "motor".toList
    ∧ (mkQuery "motor.speed".toList).subobject_name = "speed".toList
    ∧ (mkQuery "motor".toList).subobject_name = []
    ∧ (mkQuery "motor".toList).subIdx = -1 := by
  have h := C4_query_split "motor".toList "speed".toList '.'
    (by decide) (by decide) (by decide) (by decide)
  have he : "motor.speed".toList = "motor".toList ++ '.' :: "speed".toList := by decide
  refine ⟨?_, ?_, ?_, ?_⟩
  · rw [he, h.1.1]
    decide
  · rw [he, h.1.2.1]
    decide
  · exact h.2.2.1
  · exact h.2.2.2
